import Mathlib

/-!
Verification of the chunking + vector-retrieval core of typescript-rag-cli.

Text is modelled as `List Char`, JS numbers as `ℚ` (exact arithmetic; the
only irrational operation, `Math.sqrt`, is applied at the outermost layer
and is modelled with `Real.sqrt` in statements), JS integers as `Int`,
and code that can throw as `Except String`.

Chunker source: `src/services/dataService.ts`, function `chunkText`.
Vector index source: `src/models/vectorIndex.ts` and `calculateL2Distance`
from `src/utils/distance.ts`.
-/

/-- Characters matched by the JavaScript regex class `\s` (ECMA-262
WhiteSpace and LineTerminator characters). -/
def jsWhitespace (c : Char) : Bool :=
  c = ' ' || c = '\t' || c = '\n' || c = '\r' || c = '\x0b' || c = '\x0c' ||
  c = '\u00a0' || c = '\u1680' || ('\u2000' ≤ c && c ≤ '\u200a') ||
  c = '\u2028' || c = '\u2029' || c = '\u202f' || c = '\u205f' ||
  c = '\u3000' || c = '\ufeff'

/-- Terminal punctuation characters of the sentence regex `[^.!?]+[.!?]+`. -/
def isTermPunct (c : Char) : Bool :=
  c = '.' || c = '!' || c = '?'

/-- Helper for the leftmost match of `/\n\s*\n/`: given the characters that
follow an initial `'\n'`, returns the position of the last `'\n'` inside the
maximal leading whitespace run, if any.  Greedy `\s*` followed by a final
`\n` backtracks to exactly that newline. -/
def lastNlInWsRun : List Char → Option Nat
  | [] => none
  | c :: cs =>
    if jsWhitespace c then
      match lastNlInWsRun cs with
      | some p => some (p + 1)
      | none => if c = '\n' then some 0 else none
    else none

/-- Worker for `text.split(/\n\s*\n/)`.  `fuel` dominates the length of the
remaining input so that the recursion is structural; each step consumes at
least one character. -/
def splitParasGo : Nat → List Char → List Char → List (List Char)
  | _, acc, [] => [acc.reverse]
  | 0, acc, rest => [acc.reverse ++ rest]
  | fuel + 1, acc, c :: cs =>
    if c = '\n' then
      match lastNlInWsRun cs with
      | some p => acc.reverse :: splitParasGo fuel [] (cs.drop (p + 1))
      | none => splitParasGo fuel (c :: acc) cs
    else splitParasGo fuel (c :: acc) cs

/-- Model of `text.split(/\n\s*\n/)` from `chunkText` (line 238). -/
def splitParas (s : List Char) : List (List Char) :=
  splitParasGo s.length [] s

/-- Worker for `paragraph.match(/[^.!?]+[.!?]+/g)`: returns the list of all
matches, leftmost first.  Any trailing text with no terminal punctuation is
not part of any match and is therefore not returned. -/
def sentMatchesGo : Nat → List Char → List (List Char)
  | _, [] => []
  | 0, _ => []
  | fuel + 1, l =>
    let l1 := l.dropWhile isTermPunct
    let body := l1.takeWhile (fun c => !(isTermPunct c))
    let rest1 := l1.dropWhile (fun c => !(isTermPunct c))
    if rest1.isEmpty then []
    else (body ++ rest1.takeWhile isTermPunct) ::
      sentMatchesGo fuel (rest1.dropWhile isTermPunct)

/-- Model of `paragraph.match(/[^.!?]+[.!?]+/g) || [paragraph]` from
`chunkText` (line 250): the match list, or the whole paragraph when the
regex has no match at all. -/
def sentenceSplits (p : List Char) : List (List Char) :=
  match sentMatchesGo p.length p with
  | [] => [p]
  | ms => ms

/-- Worker for `sentence.split(/\s+/)`: split on maximal whitespace runs,
keeping the (possibly empty) pieces before the first and after the last
run, exactly as the JS `split` does. -/
def splitWsGo : Nat → List Char → List Char → List (List Char)
  | _, acc, [] => [acc.reverse]
  | 0, acc, rest => [acc.reverse ++ rest]
  | fuel + 1, acc, c :: cs =>
    if jsWhitespace c then
      acc.reverse :: splitWsGo fuel [] (cs.dropWhile jsWhitespace)
    else splitWsGo fuel (c :: acc) cs

/-- Model of `sentence.split(/\s+/)` from `chunkText` (line 260). -/
def splitWs (s : List Char) : List (List Char) :=
  splitWsGo s.length [] s

/-- The loop state of `chunkText`: the completed `chunks` array and the
`currentChunk` accumulator. -/
abbrev ChunkState := List (List Char) × List Char

/-- The two source lines `chunks.push(currentChunk); currentChunk = ''`. -/
def flushState (st : ChunkState) : ChunkState :=
  (st.1 ++ [st.2], [])

/-- Body of the innermost loop of `chunkText` (lines 261-268): flush when
adding the word (plus one separator character) would strictly exceed
`chunkSize` and the accumulator is non-empty, then append the word,
space-separated when the accumulator is non-empty. -/
def pushWord (chunkSize : Int) (st : ChunkState) (w : List Char) : ChunkState :=
  let st' := if (st.2.length : Int) + (w.length : Int) + 1 > chunkSize ∧ 0 < st.2.length
    then flushState st else st
  (st'.1, st'.2 ++ (if st'.2.isEmpty then [] else [' ']) ++ w)

/-- Body of the sentence loop of `chunkText` (lines 252-272): flush when
adding the sentence would strictly exceed `chunkSize` and the accumulator
is non-empty; an oversized sentence is split into words, otherwise the
sentence is appended space-separated. -/
def pushSentence (chunkSize : Int) (st : ChunkState) (s : List Char) : ChunkState :=
  let st' := if (st.2.length : Int) + (s.length : Int) > chunkSize ∧ 0 < st.2.length
    then flushState st else st
  if (s.length : Int) > chunkSize then
    (splitWs s).foldl (pushWord chunkSize) st'
  else
    (st'.1, st'.2 ++ (if st'.2.isEmpty then [] else [' ']) ++ s)

/-- Body of the paragraph loop of `chunkText` (lines 241-276): flush when
adding the paragraph would strictly exceed `chunkSize` and the accumulator
is non-empty; an oversized paragraph is split into sentences, otherwise the
paragraph is appended separated by a blank line. -/
def pushParagraph (chunkSize : Int) (st : ChunkState) (p : List Char) : ChunkState :=
  let st' := if (st.2.length : Int) + (p.length : Int) > chunkSize ∧ 0 < st.2.length
    then flushState st else st
  if (p.length : Int) > chunkSize then
    (sentenceSplits p).foldl (pushSentence chunkSize) st'
  else
    (st'.1, st'.2 ++ (if st'.2.isEmpty then [] else ['\n', '\n']) ++ p)

/-- Model of `chunkText(text, chunkSize)` from `src/services/dataService.ts`
lines 234-284: split into paragraphs, run the accumulator loop, and flush a
non-empty final accumulator. -/
def chunkText (text : List Char) (chunkSize : Int) : List (List Char) :=
  let st := (splitParas text).foldl (pushParagraph chunkSize) ([], [])
  if 0 < st.2.length then st.1 ++ [st.2] else st.1

example : splitParas (String.toList "a\n \nb") = [['a'], ['b']] := by decide

example : splitParas (String.toList "a\nb") = [String.toList "a\nb"] := by decide

example : sentenceSplits (String.toList "abc. xyzzy") = [String.toList "abc."] := by decide

example : sentenceSplits (String.toList "no punct") = [String.toList "no punct"] := by decide

example : splitWs (String.toList " a  bc ") = [[], ['a'], ['b', 'c'], []] := by decide

example : chunkText (String.toList "Short text.") 20 = [String.toList "Short text."] := by decide

example : chunkText (String.toList "abcde\n\nfghij") 10 = [String.toList "abcde\n\nfghij"] := by decide

example : chunkText (String.toList "abc. xyzzy") 5 = [String.toList "abc."] := by decide

example : chunkText (String.toList "verylongword") 5 = [String.toList "verylongword"] := by decide

example : chunkText [] 10 = [] := by decide

/-- Sum of squared component differences, the value under the square root
in `calculateL2Distance` (`src/utils/distance.ts` lines 23-27). -/
def sumSqDiff (a b : List ℚ) : ℚ :=
  ((a.zip b).map (fun p => (p.1 - p.2) * (p.1 - p.2))).sum

/-- The rational part of `calculateL2Distance(a, b)`: dimension check, then
the sum of squared differences (the square root is applied on top, see
`calculateL2Distance`).  Sorting by this value is order-equivalent to
sorting by the true distance because the square root is monotone. -/
def calculateL2DistanceSq (a b : List ℚ) : Except String ℚ :=
  if a.length = b.length then .ok (sumSqDiff a b)
  else .error "Vectors must have the same dimensions"

/-- Model of `calculateL2Distance(a, b)` from `src/utils/distance.ts`:
`sqrt(Σ (a_i - b_i)^2)`, or a thrown dimension-mismatch error. -/
noncomputable def calculateL2Distance (a b : List ℚ) : Except String ℝ :=
  (calculateL2DistanceSq a b).map (fun d => Real.sqrt (d : ℝ))

/-- The Euclidean distance between two equal-length vectors, used in
theorem statements. -/
noncomputable def euclDist (a b : List ℚ) : ℝ :=
  Real.sqrt ((sumSqDiff a b : ℚ) : ℝ)

/-- Worker for `this.vectors.map((vector, index) => [dist, index])` in
`VectorIndex.search` (lines 17-19): the element index is threaded through,
and a throw from the callback propagates from the first failing element. -/
def distancePairsGo (q : List ℚ) (n : ℕ) : List (List ℚ) → Except String (List (ℚ × ℕ))
  | [] => .ok []
  | v :: rest =>
    match calculateL2DistanceSq q v with
    | .error e => .error e
    | .ok d =>
      match distancePairsGo q (n + 1) rest with
      | .error e => .error e
      | .ok ps => .ok ((d, n) :: ps)

/-- The `[distance, index]` pair array built by `search` and
`searchWithScores`, with distances represented by their squares. -/
def distancePairs (vectors : List (List ℚ)) (q : List ℚ) : Except String (List (ℚ × ℕ)) :=
  distancePairsGo q 0 vectors

/-- Model of `.sort((a, b) => a[0] - b[0])`: `Array.prototype.sort` is
stable (ECMA-262), and a stable sort by the first component is insertion
sort that keeps an element before later equal-keyed ones. -/
def sortPairs (l : List (ℚ × ℕ)) : List (ℚ × ℕ) :=
  l.insertionSort (fun p q => p.1 ≤ q.1)

/-- Model of `arr.slice(0, k)` for an integer `k`: a non-negative `k` takes
the first `min(k, n)` elements; a negative `k` is treated as `n + k`,
clamped at `0`. -/
def jsSlice {α : Type} (l : List α) (k : Int) : List α :=
  if 0 ≤ k then l.take k.toNat else l.take (l.length - (-k).toNat)

/-- Model of `VectorIndex.search(queryVector, k)` (lines 16-26): distance
pairs, stable sort by ascending distance, slice to `k`, project indices. -/
def search (vectors : List (List ℚ)) (q : List ℚ) (k : Int) : Except String (List ℕ) :=
  (distancePairs vectors q).map (fun ps => (jsSlice (sortPairs ps) k).map Prod.snd)

/-- Model of `VectorIndex.searchWithScores(queryVector, k)` (lines 34-48):
same pipeline, each index paired with `1 / (1 + distance)` where the
distance is the true (square-rooted) one. -/
noncomputable def searchWithScores (vectors : List (List ℚ)) (q : List ℚ) (k : Int) :
    Except String (List (ℕ × ℝ)) :=
  (distancePairs vectors q).map
    (fun ps => (jsSlice (sortPairs ps) k).map
      (fun p => (p.2, 1 / (1 + Real.sqrt ((p.1 : ℚ) : ℝ)))))

/-- Equality of `Except` values is decidable when it is on both sides;
used to evaluate the vector-index model on concrete inputs. -/
instance exceptDecidableEq {e a : Type} [DecidableEq e] [DecidableEq a] :
    DecidableEq (Except e a)
  | .ok x, .ok y =>
    if h : x = y then .isTrue (by rw [h]) else .isFalse (by simp [h])
  | .ok _, .error _ => .isFalse (by simp)
  | .error _, .ok _ => .isFalse (by simp)
  | .error x, .error y =>
    if h : x = y then .isTrue (by rw [h]) else .isFalse (by simp [h])

/-- The pure pair list produced when every distance computation succeeds. -/
def pairListFrom (q : List ℚ) (n : ℕ) : List (List ℚ) → List (ℚ × ℕ)
  | [] => []
  | v :: rest => (sumSqDiff q v, n) :: pairListFrom q (n + 1) rest

/-- Strict lexicographic order on `(distance, index)` pairs: the order in
which a stable ascending-distance sort of distinct-index pairs lists them. -/
def PairLex (p q : ℚ × ℕ) : Prop :=
  p.1 < q.1 ∨ (p.1 = q.1 ∧ p.2 < q.2)

theorem sumSqDiff_nonneg (a b : List ℚ) : 0 ≤ sumSqDiff a b := by
  refine List.sum_nonneg ?_
  intro x hx
  obtain ⟨p, _, rfl⟩ := List.mem_map.mp hx
  exact mul_self_nonneg _

theorem pairListFrom_length (q : List ℚ) :
    ∀ (vecs : List (List ℚ)) (n : ℕ), (pairListFrom q n vecs).length = vecs.length := by
  intro vecs
  induction vecs with
  | nil => intro n; rfl
  | cons v rest ih => intro n; simpa [pairListFrom] using ih (n + 1)

theorem mem_pairListFrom (q : List ℚ) :
    ∀ (vecs : List (List ℚ)) (n : ℕ) (p : ℚ × ℕ), p ∈ pairListFrom q n vecs →
      n ≤ p.2 ∧ p.2 - n < vecs.length ∧ p.1 = sumSqDiff q (vecs.getD (p.2 - n) []) := by
  intro vecs
  induction vecs with
  | nil => intro n p hp; simp [pairListFrom] at hp
  | cons v rest ih =>
    intro n p hp
    rcases List.mem_cons.mp hp with h | h
    · subst h
      simp [pairListFrom]
    · obtain ⟨h1, h2, h3⟩ := ih (n + 1) p h
      have hsub : p.2 - n = (p.2 - (n + 1)) + 1 := by omega
      refine ⟨by omega, ?_, ?_⟩
      · simp only [List.length_cons]; omega
      · rw [hsub]; simpa using h3

theorem pairListFrom_pairwise (q : List ℚ) :
    ∀ (vecs : List (List ℚ)) (n : ℕ),
      (pairListFrom q n vecs).Pairwise (fun a b => a.2 < b.2) := by
  intro vecs
  induction vecs with
  | nil => intro n; exact List.Pairwise.nil
  | cons v rest ih =>
    intro n
    refine List.Pairwise.cons ?_ (ih (n + 1))
    intro y hy
    have := (mem_pairListFrom q rest (n + 1) y hy).1
    simpa using lt_of_lt_of_le (Nat.lt_succ_self n) this

theorem pairListFrom_map_snd (q : List ℚ) :
    ∀ (vecs : List (List ℚ)) (n : ℕ),
      (pairListFrom q n vecs).map Prod.snd = List.range' n vecs.length := by
  intro vecs
  induction vecs with
  | nil => intro n; rfl
  | cons v rest ih =>
    intro n
    simp only [pairListFrom, List.map_cons, List.length_cons, List.range'_succ]
    rw [ih (n + 1)]

theorem distancePairsGo_ok (q : List ℚ) :
    ∀ (vecs : List (List ℚ)) (n : ℕ), (∀ v ∈ vecs, v.length = q.length) →
      distancePairsGo q n vecs = .ok (pairListFrom q n vecs) := by
  intro vecs
  induction vecs with
  | nil => intro n _; rfl
  | cons v rest ih =>
    intro n h
    have hv : q.length = v.length := (h v (List.mem_cons_self v rest)).symm
    have hrest := ih (n + 1) (fun w hw => h w (List.mem_cons_of_mem v hw))
    simp [distancePairsGo, calculateL2DistanceSq, hv, hrest, pairListFrom]

theorem orderedInsert_pairwise_plex (x : ℚ × ℕ) :
    ∀ (l : List (ℚ × ℕ)), l.Pairwise PairLex → (∀ y ∈ l, x.2 < y.2) →
      (List.orderedInsert (fun p q => p.1 ≤ q.1) x l).Pairwise PairLex := by
  intro l
  induction l with
  | nil => intro _ _; simp [List.orderedInsert, PairLex]
  | cons y ys ih =>
    intro hpw hidx
    by_cases hle : x.1 ≤ y.1
    · rw [List.orderedInsert, if_pos hle]
      refine List.Pairwise.cons ?_ hpw
      intro z hz
      rcases List.mem_cons.mp hz with h | h
      · subst h
        rcases lt_or_eq_of_le hle with h1 | h1
        · exact Or.inl h1
        · exact Or.inr ⟨h1, hidx z (List.mem_cons_self z ys)⟩
      · have hyz := (List.pairwise_cons.mp hpw).1 z h
        rcases hyz with h1 | h1
        · exact Or.inl (lt_of_le_of_lt hle h1)
        · rcases lt_or_eq_of_le hle with h2 | h2
          · exact Or.inl (h1.1 ▸ h2)
          · exact Or.inr ⟨h2.trans h1.1, hidx z (List.mem_cons_of_mem y h)⟩
    · rw [List.orderedInsert, if_neg hle]
      obtain ⟨hy, hys⟩ := List.pairwise_cons.mp hpw
      refine List.Pairwise.cons ?_ (ih hys (fun z hz => hidx z (List.mem_cons_of_mem y hz)))
      intro w hw
      rcases (List.mem_orderedInsert _).mp hw with h | h
      · subst h
        exact Or.inl (lt_of_not_le hle)
      · exact hy w h

theorem sortPairs_pairwise_plex :
    ∀ (l : List (ℚ × ℕ)), l.Pairwise (fun a b => a.2 < b.2) →
      (sortPairs l).Pairwise PairLex := by
  intro l
  induction l with
  | nil => intro _; exact List.Pairwise.nil
  | cons x xs ih =>
    intro h
    obtain ⟨hx, hxs⟩ := List.pairwise_cons.mp h
    have hsorted := ih hxs
    have hmem : ∀ y ∈ sortPairs xs, x.2 < y.2 := by
      intro y hy
      exact hx y ((List.perm_insertionSort _ xs).mem_iff.mp hy)
    exact orderedInsert_pairwise_plex x (sortPairs xs) hsorted hmem

theorem sortPairs_perm (l : List (ℚ × ℕ)) : (sortPairs l).Perm l :=
  List.perm_insertionSort _ l

theorem jsSlice_sublist {α : Type} (l : List α) (k : Int) : (jsSlice l k).Sublist l := by
  unfold jsSlice
  by_cases h : 0 ≤ k
  · rw [if_pos h]; exact List.take_sublist _ _
  · rw [if_neg h]; exact List.take_sublist _ _

/-- C3: over a VectorIndex whose stored vectors all have the query's
dimensionality, for every non-negative integer k the search returns
min(k, n) indices of stored vectors sorted by non-decreasing Euclidean
distance to the query, with ties at equal distance listed in ascending
insertion-index order, and k at least n returns a permutation of all n
indices. -/
theorem search_ordered_spec (vecs : List (List ℚ)) (q : List ℚ) (k : ℕ)
    (hdim : ∀ v ∈ vecs, v.length = q.length) :
    ∃ r : List ℕ, search vecs q (k : Int) = .ok r ∧
      r.length = min k vecs.length ∧
      (∀ i ∈ r, i < vecs.length) ∧
      r.Pairwise (fun i j => euclDist q (vecs.getD i []) ≤ euclDist q (vecs.getD j [])) ∧
      r.Pairwise (fun i j => euclDist q (vecs.getD i []) = euclDist q (vecs.getD j []) → i < j) ∧
      (vecs.length ≤ k → r.Perm (List.range vecs.length)) := by
  have hdp : distancePairs vecs q = .ok (pairListFrom q 0 vecs) :=
    distancePairsGo_ok q vecs 0 hdim
  have hperm : (sortPairs (pairListFrom q 0 vecs)).Perm (pairListFrom q 0 vecs) :=
    sortPairs_perm _
  have hlen : (sortPairs (pairListFrom q 0 vecs)).length = vecs.length := by
    rw [hperm.length_eq, pairListFrom_length]
  have hplex : (sortPairs (pairListFrom q 0 vecs)).Pairwise PairLex :=
    sortPairs_pairwise_plex _ (pairListFrom_pairwise q vecs 0)
  have hfact : ∀ p ∈ sortPairs (pairListFrom q 0 vecs),
      p.2 < vecs.length ∧ p.1 = sumSqDiff q (vecs.getD p.2 []) := by
    intro p hp
    have hm := mem_pairListFrom q vecs 0 p (hperm.mem_iff.mp hp)
    simpa using hm.2
  have hkpos : (0 : Int) ≤ (k : Int) := by positivity
  have hslsub : (jsSlice (sortPairs (pairListFrom q 0 vecs)) (k : Int)).Sublist
      (sortPairs (pairListFrom q 0 vecs)) := jsSlice_sublist _ _
  have hslfact : ∀ p ∈ jsSlice (sortPairs (pairListFrom q 0 vecs)) (k : Int),
      p.2 < vecs.length ∧ p.1 = sumSqDiff q (vecs.getD p.2 []) :=
    fun p hp => hfact p (hslsub.subset hp)
  have hpl : (jsSlice (sortPairs (pairListFrom q 0 vecs)) (k : Int)).Pairwise PairLex :=
    List.Pairwise.sublist hslsub hplex
  refine ⟨(jsSlice (sortPairs (pairListFrom q 0 vecs)) (k : Int)).map Prod.snd,
      ?_, ?_, ?_, ?_, ?_, ?_⟩
  · rw [search, hdp]; rfl
  · rw [List.length_map]
    unfold jsSlice
    rw [if_pos hkpos]
    simp [hlen]
  · intro i hi
    obtain ⟨p, hp, rfl⟩ := List.mem_map.mp hi
    exact (hslfact p hp).1
  · refine List.pairwise_map.mpr (hpl.imp_of_mem ?_)
    intro a b ha hb hr
    have hfa := (hslfact a ha).2
    have hfb := (hslfact b hb).2
    have hab : a.1 ≤ b.1 := by
      rcases hr with h | h
      · exact le_of_lt h
      · exact le_of_eq h.1
    simp only [euclDist, ← hfa, ← hfb]
    exact Real.sqrt_le_sqrt (by exact_mod_cast hab)
  · refine List.pairwise_map.mpr (hpl.imp_of_mem ?_)
    intro a b ha hb hr heq
    have hfa := (hslfact a ha).2
    have hfb := (hslfact b hb).2
    have hna : (0 : ℝ) ≤ ((a.1 : ℚ) : ℝ) := by
      rw [hfa]; exact_mod_cast sumSqDiff_nonneg q _
    have hnb : (0 : ℝ) ≤ ((b.1 : ℚ) : ℝ) := by
      rw [hfb]; exact_mod_cast sumSqDiff_nonneg q _
    have heq2 : ((a.1 : ℚ) : ℝ) = ((b.1 : ℚ) : ℝ) := by
      refine (Real.sqrt_inj hna hnb).mp ?_
      unfold euclDist at heq
      rw [hfa, hfb]
      exact heq
    have heq3 : a.1 = b.1 := by exact_mod_cast heq2
    rcases hr with h | h
    · exact absurd heq3 (ne_of_lt h)
    · exact h.2
  · intro hk
    have htk : jsSlice (sortPairs (pairListFrom q 0 vecs)) (k : Int) =
        sortPairs (pairListFrom q 0 vecs) := by
      unfold jsSlice
      rw [if_pos hkpos]
      refine List.take_of_length_le ?_
      simp [hlen]
      omega
    rw [htk]
    have := (hperm.map Prod.snd)
    rw [pairListFrom_map_snd] at this
    rw [List.range_eq_range']
    exact this

/-- Witness for search_ordered_spec: its hypothesis holds and its
conclusion follows at a concrete two-vector index. -/
theorem search_ordered_spec_witness :
    (∀ v ∈ [[(1 : ℚ)], [0]], v.length = [(0 : ℚ)].length) ∧
    (∃ r : List ℕ, search [[(1 : ℚ)], [0]] [(0 : ℚ)] ((1 : ℕ) : Int) = .ok r ∧
      r.length = min 1 ([[(1 : ℚ)], [0]] : List (List ℚ)).length ∧
      (∀ i ∈ r, i < ([[(1 : ℚ)], [0]] : List (List ℚ)).length) ∧
      r.Pairwise (fun i j => euclDist [(0 : ℚ)] (([[(1 : ℚ)], [0]] : List (List ℚ)).getD i []) ≤
        euclDist [(0 : ℚ)] (([[(1 : ℚ)], [0]] : List (List ℚ)).getD j [])) ∧
      r.Pairwise (fun i j => euclDist [(0 : ℚ)] (([[(1 : ℚ)], [0]] : List (List ℚ)).getD i []) =
        euclDist [(0 : ℚ)] (([[(1 : ℚ)], [0]] : List (List ℚ)).getD j []) → i < j) ∧
      (([[(1 : ℚ)], [0]] : List (List ℚ)).length ≤ 1 →
        r.Perm (List.range ([[(1 : ℚ)], [0]] : List (List ℚ)).length))) :=
  ⟨by decide, search_ordered_spec [[(1 : ℚ)], [0]] [(0 : ℚ)] 1 (by decide)⟩

/-- C4: on a non-empty index whose stored vectors all have dimensionality D,
a query of any other length makes both search and searchWithScores surface
the dimension-mismatch error with no partial result. -/
theorem search_dimension_mismatch (vecs : List (List ℚ)) (q : List ℚ) (k : Int) (D : ℕ)
    (hne : vecs ≠ []) (hd : ∀ v ∈ vecs, v.length = D) (hq : q.length ≠ D) :
    search vecs q k = .error "Vectors must have the same dimensions" ∧
    searchWithScores vecs q k = .error "Vectors must have the same dimensions" := by
  obtain ⟨v, rest, rfl⟩ := List.exists_cons_of_ne_nil hne
  have hv : v.length = D := hd v (List.mem_cons_self v rest)
  have hqd : ¬ (q.length = v.length) := by rw [hv]; exact hq
  have hgo : distancePairsGo q 0 (v :: rest) = .error "Vectors must have the same dimensions" := by
    simp [distancePairsGo, calculateL2DistanceSq, hqd]
  exact ⟨by simp [search, distancePairs, hgo, Except.map],
    by simp [searchWithScores, distancePairs, hgo, Except.map]⟩

/-- Witness for search_dimension_mismatch at a concrete input. -/
theorem search_dimension_mismatch_witness :
    (([[(0 : ℚ), 0]] : List (List ℚ)) ≠ [] ∧ (∀ v ∈ [[(0 : ℚ), 0]], v.length = 2) ∧
      ([(0 : ℚ)] : List ℚ).length ≠ 2) ∧
    (search [[(0 : ℚ), 0]] [(0 : ℚ)] 3 = .error "Vectors must have the same dimensions" ∧
      searchWithScores [[(0 : ℚ), 0]] [(0 : ℚ)] 3 =
        .error "Vectors must have the same dimensions") :=
  ⟨⟨by decide, by decide, by decide⟩,
    search_dimension_mismatch [[(0 : ℚ), 0]] [(0 : ℚ)] 3 2 (by decide) (by decide) (by decide)⟩

/-- C10: with matching dimensionality, k = 0 slices to an empty result, and
a negative k keeps the first n - |k| entries of the full ascending-distance
order, for search and searchWithScores alike: no error, no special case. -/
theorem search_k_zero_and_negative (vecs : List (List ℚ)) (q : List ℚ)
    (hdim : ∀ v ∈ vecs, v.length = q.length) :
    search vecs q 0 = .ok [] ∧ searchWithScores vecs q 0 = .ok [] ∧
    ∀ k : Int, k < 0 →
      search vecs q k =
        (search vecs q (vecs.length : Int)).map
          (fun r => r.take (vecs.length - (-k).toNat)) ∧
      searchWithScores vecs q k =
        (searchWithScores vecs q (vecs.length : Int)).map
          (fun s => s.take (vecs.length - (-k).toNat)) := by
  have hdp : distancePairs vecs q = .ok (pairListFrom q 0 vecs) :=
    distancePairsGo_ok q vecs 0 hdim
  have hlen : (sortPairs (pairListFrom q 0 vecs)).length = vecs.length := by
    rw [(sortPairs_perm _).length_eq, pairListFrom_length]
  have hsl0 : jsSlice (sortPairs (pairListFrom q 0 vecs)) 0 = [] := by
    unfold jsSlice; simp
  have hsln : jsSlice (sortPairs (pairListFrom q 0 vecs)) (vecs.length : Int) =
      sortPairs (pairListFrom q 0 vecs) := by
    unfold jsSlice
    rw [if_pos (by positivity)]
    exact List.take_of_length_le (by simp [hlen])
  refine ⟨?_, ?_, ?_⟩
  · simp [search, hdp, hsl0, Except.map]
  · simp [searchWithScores, hdp, hsl0, Except.map]
  · intro k hk
    have hneg : ¬ (0 ≤ k) := not_le.mpr hk
    have hslk : jsSlice (sortPairs (pairListFrom q 0 vecs)) k =
        (sortPairs (pairListFrom q 0 vecs)).take (vecs.length - (-k).toNat) := by
      unfold jsSlice
      rw [if_neg hneg, hlen]
    exact ⟨by simp [search, hdp, hslk, hsln, Except.map, List.map_take],
      by simp [searchWithScores, hdp, hslk, hsln, Except.map, List.map_take]⟩

/-- Witness for search_k_zero_and_negative at a concrete input. -/
theorem search_k_zero_and_negative_witness :
    (∀ v ∈ [[(0 : ℚ)], [1]], v.length = [(0 : ℚ)].length) ∧
    (search [[(0 : ℚ)], [1]] [(0 : ℚ)] 0 = .ok [] ∧
      searchWithScores [[(0 : ℚ)], [1]] [(0 : ℚ)] 0 = .ok [] ∧
      ∀ k : Int, k < 0 →
        search [[(0 : ℚ)], [1]] [(0 : ℚ)] k =
          (search [[(0 : ℚ)], [1]] [(0 : ℚ)] (([[(0 : ℚ)], [1]] : List (List ℚ)).length : Int)).map
            (fun r => r.take (([[(0 : ℚ)], [1]] : List (List ℚ)).length - (-k).toNat)) ∧
        searchWithScores [[(0 : ℚ)], [1]] [(0 : ℚ)] k =
          (searchWithScores [[(0 : ℚ)], [1]] [(0 : ℚ)]
              (([[(0 : ℚ)], [1]] : List (List ℚ)).length : Int)).map
            (fun s => s.take (([[(0 : ℚ)], [1]] : List (List ℚ)).length - (-k).toNat))) :=
  ⟨by decide, search_k_zero_and_negative [[(0 : ℚ)], [1]] [(0 : ℚ)] (by decide)⟩

/-- C5 (amended): searchWithScores returns the same indices in the same
order as search, each scored 1 / (1 + distance), a value in (0, 1]; along
the result order scores are non-increasing, and strictly smaller for a
strictly farther vector (equal-distance vectors receive equal scores). -/
theorem searchWithScores_spec (vecs : List (List ℚ)) (q : List ℚ) (k : Int)
    (hdim : ∀ v ∈ vecs, v.length = q.length) :
    ∃ (r : List ℕ) (s : List (ℕ × ℝ)),
      search vecs q k = .ok r ∧ searchWithScores vecs q k = .ok s ∧
      s.map Prod.fst = r ∧
      (∀ p ∈ s, p.2 = 1 / (1 + euclDist q (vecs.getD p.1 [])) ∧ 0 < p.2 ∧ p.2 ≤ 1) ∧
      s.Pairwise (fun a b => b.2 ≤ a.2) ∧
      s.Pairwise (fun a b =>
        euclDist q (vecs.getD a.1 []) < euclDist q (vecs.getD b.1 []) → b.2 < a.2) := by
  have hdp : distancePairs vecs q = .ok (pairListFrom q 0 vecs) :=
    distancePairsGo_ok q vecs 0 hdim
  have hperm : (sortPairs (pairListFrom q 0 vecs)).Perm (pairListFrom q 0 vecs) :=
    sortPairs_perm _
  have hplex : (sortPairs (pairListFrom q 0 vecs)).Pairwise PairLex :=
    sortPairs_pairwise_plex _ (pairListFrom_pairwise q vecs 0)
  have hfact : ∀ p ∈ sortPairs (pairListFrom q 0 vecs),
      p.2 < vecs.length ∧ p.1 = sumSqDiff q (vecs.getD p.2 []) := by
    intro p hp
    have hm := mem_pairListFrom q vecs 0 p (hperm.mem_iff.mp hp)
    simpa using hm.2
  have hslsub : (jsSlice (sortPairs (pairListFrom q 0 vecs)) k).Sublist
      (sortPairs (pairListFrom q 0 vecs)) := jsSlice_sublist _ _
  have hslfact : ∀ p ∈ jsSlice (sortPairs (pairListFrom q 0 vecs)) k,
      p.2 < vecs.length ∧ p.1 = sumSqDiff q (vecs.getD p.2 []) :=
    fun p hp => hfact p (hslsub.subset hp)
  have hpl : (jsSlice (sortPairs (pairListFrom q 0 vecs)) k).Pairwise PairLex :=
    List.Pairwise.sublist hslsub hplex
  have hde : ∀ p ∈ jsSlice (sortPairs (pairListFrom q 0 vecs)) k,
      euclDist q (vecs.getD p.2 []) = Real.sqrt ((p.1 : ℚ) : ℝ) := by
    intro p hp
    unfold euclDist
    rw [← (hslfact p hp).2]
  refine ⟨(jsSlice (sortPairs (pairListFrom q 0 vecs)) k).map Prod.snd,
    (jsSlice (sortPairs (pairListFrom q 0 vecs)) k).map
      (fun p => (p.2, 1 / (1 + Real.sqrt ((p.1 : ℚ) : ℝ)))),
    ?_, ?_, ?_, ?_, ?_, ?_⟩
  · rw [search, hdp]; rfl
  · rw [searchWithScores, hdp]; rfl
  · rw [List.map_map]; rfl
  · intro p hp
    obtain ⟨pr, hpr, rfl⟩ := List.mem_map.mp hp
    have hpos : (0 : ℝ) < 1 + Real.sqrt ((pr.1 : ℚ) : ℝ) := by positivity
    refine ⟨?_, ?_, ?_⟩
    · rw [hde pr hpr]
    · positivity
    · rw [div_le_one hpos]
      have := Real.sqrt_nonneg ((pr.1 : ℚ) : ℝ)
      linarith
  · refine List.pairwise_map.mpr (hpl.imp_of_mem ?_)
    intro a b ha hb hr
    have hab : a.1 ≤ b.1 := by
      rcases hr with h | h
      · exact le_of_lt h
      · exact le_of_eq h.1
    have hsq : Real.sqrt ((a.1 : ℚ) : ℝ) ≤ Real.sqrt ((b.1 : ℚ) : ℝ) :=
      Real.sqrt_le_sqrt (by exact_mod_cast hab)
    have hpa : (0 : ℝ) < 1 + Real.sqrt ((a.1 : ℚ) : ℝ) := by positivity
    exact one_div_le_one_div_of_le hpa (by linarith)
  · refine List.pairwise_map.mpr (hpl.imp_of_mem ?_)
    intro a b ha hb _ hlt
    rw [hde a ha, hde b hb] at hlt
    have hpa : (0 : ℝ) < 1 + Real.sqrt ((a.1 : ℚ) : ℝ) := by positivity
    exact one_div_lt_one_div_of_lt hpa (by linarith)

/-- Witness for searchWithScores_spec at a concrete input. -/
theorem searchWithScores_spec_witness :
    (∀ v ∈ [[(0 : ℚ)], [1]], v.length = [(0 : ℚ)].length) ∧
    (∃ (r : List ℕ) (s : List (ℕ × ℝ)),
      search [[(0 : ℚ)], [1]] [(0 : ℚ)] 2 = .ok r ∧
      searchWithScores [[(0 : ℚ)], [1]] [(0 : ℚ)] 2 = .ok s ∧
      s.map Prod.fst = r ∧
      (∀ p ∈ s, p.2 =
        1 / (1 + euclDist [(0 : ℚ)] (([[(0 : ℚ)], [1]] : List (List ℚ)).getD p.1 [])) ∧
        0 < p.2 ∧ p.2 ≤ 1) ∧
      s.Pairwise (fun a b => b.2 ≤ a.2) ∧
      s.Pairwise (fun a b =>
        euclDist [(0 : ℚ)] (([[(0 : ℚ)], [1]] : List (List ℚ)).getD a.1 []) <
          euclDist [(0 : ℚ)] (([[(0 : ℚ)], [1]] : List (List ℚ)).getD b.1 []) → b.2 < a.2)) :=
  ⟨by decide, searchWithScores_spec [[(0 : ℚ)], [1]] [(0 : ℚ)] 2 (by decide)⟩

/-- Counterexample to C5 as stated: two stored vectors at the same distance
from the query receive the same score, so the returned scores are not
strictly decreasing along the result order. -/
theorem searchWithScores_tie_not_strict :
    searchWithScores [[(1 : ℚ)], [1]] [(1 : ℚ)] 2 = .ok [(0, 1), (1, 1)] ∧
    ¬ List.Pairwise (fun a b : ℕ × ℝ => b.2 < a.2) [(0, 1), (1, 1)] := by
  constructor
  · norm_num [searchWithScores, distancePairs, distancePairsGo, calculateL2DistanceSq,
      sumSqDiff, sortPairs, List.insertionSort, List.orderedInsert, jsSlice, Except.map,
      Real.sqrt_zero, Int.toNat_ofNat]
  · intro h
    have h1 := (List.pairwise_cons.mp h).1 (1, 1) (by simp)
    simp at h1

/-- C8 (amended): the documented four-vector scenario returns indices 0 and
1 nearest first; the true distances there are sqrt 3 and sqrt 12. -/
theorem search_concrete_scenario :
    search [[1, 2, 3], [4, 5, 6], [7, 8, 9], [10, 11, 12]] [2, 3, 4] 2 = .ok [0, 1] ∧
    calculateL2Distance [2, 3, 4] [1, 2, 3] = .ok (Real.sqrt 3) ∧
    calculateL2Distance [2, 3, 4] [4, 5, 6] = .ok (Real.sqrt 12) ∧
    Real.sqrt 3 ≤ Real.sqrt 12 := by
  refine ⟨?_, ?_, ?_, Real.sqrt_le_sqrt (by norm_num)⟩
  · norm_num [search, distancePairs, distancePairsGo, calculateL2DistanceSq, sumSqDiff,
      sortPairs, List.insertionSort, List.orderedInsert, jsSlice, Except.map]
    decide
  · norm_num [calculateL2Distance, calculateL2DistanceSq, sumSqDiff, Except.map]
  · norm_num [calculateL2Distance, calculateL2DistanceSq, sumSqDiff, Except.map]

/-- Counterexample to C8 as stated: in the documented scenario the distance
from the query to vector 0 is sqrt 3, not sqrt 2, and the distance to
vector 1 is sqrt 12, not sqrt 27. -/
theorem search_concrete_distances_counterexample :
    calculateL2Distance [2, 3, 4] [1, 2, 3] = .ok (Real.sqrt 3) ∧
    Real.sqrt 3 ≠ Real.sqrt 2 ∧
    calculateL2Distance [2, 3, 4] [4, 5, 6] = .ok (Real.sqrt 12) ∧
    Real.sqrt 12 ≠ Real.sqrt 27 := by
  refine ⟨?_, ?_, ?_, ?_⟩
  · norm_num [calculateL2Distance, calculateL2DistanceSq, sumSqDiff, Except.map]
  · intro h
    have h2 : (3 : ℝ) = 2 := (Real.sqrt_inj (by norm_num) (by norm_num)).mp h
    norm_num at h2
  · norm_num [calculateL2Distance, calculateL2DistanceSq, sumSqDiff, Except.map]
  · intro h
    have h2 : (12 : ℝ) = 27 := (Real.sqrt_inj (by norm_num) (by norm_num)).mp h
    norm_num at h2

/-- C1 (code defect at a failing input): chunking "abc. xyzzy" at size 5
drops the unpunctuated residual after the last sentence match: the letter z
occurs in the input and is not a separator character, yet occurs in no
returned chunk. -/
theorem chunkText_residual_loss :
    chunkText (String.toList "abc. xyzzy") 5 = [String.toList "abc."] ∧
    'z' ∈ String.toList "abc. xyzzy" ∧ jsWhitespace 'z' = false ∧
    ∀ c ∈ chunkText (String.toList "abc. xyzzy") 5, 'z' ∉ c := by decide

/-- C9 (code defect at a failing input): "verylongword" is a
whitespace-delimited word of the input longer than the chunk size 5, yet
after the sentence "ab." is matched the residual holding it is dropped, so
no returned chunk contains it. -/
theorem chunkText_oversized_word_dropped :
    chunkText (String.toList "ab. verylongword") 5 = [String.toList "ab."] ∧
    String.toList "verylongword" ∈ splitWs (String.toList "ab. verylongword") ∧
    5 < (String.toList "verylongword").length ∧
    ∀ c ∈ chunkText (String.toList "ab. verylongword") 5, 'w' ∉ c := by decide

/-- Counterexample to C2 as stated: two five-character paragraphs joined by
a blank line fit the flush check (5 + 5 is not greater than 10) but the
inserted two-character separator makes the emitted chunk 12 characters
long, exceeding the chunk size 10, and the chunk is not a single word
because it contains whitespace. -/
theorem chunkText_exceeds_chunkSize :
    chunkText (String.toList "abcde\n\nfghij") 10 = [String.toList "abcde\n\nfghij"] ∧
    (String.toList "abcde\n\nfghij").length = 12 ∧
    '\n' ∈ String.toList "abcde\n\nfghij" ∧ jsWhitespace '\n' = true := by decide

/-- Counterexample to C6 as stated: a non-positive chunk size is not
rejected; chunkText runs the normal algorithm and returns a chunk list. -/
theorem chunkText_nonpos_no_error :
    chunkText (String.toList "ab") 0 = [String.toList "ab"] := by decide

/-- Counterexample to C7 as stated: the text "a\n \nb" is shorter than the
chunk size and every paragraph fits, and exactly one chunk is returned, but
the chunk rewrites the three-character blank-line separator to a plain
blank line and so is not character-for-character equal to the input. -/
theorem chunkText_not_verbatim :
    (String.toList "a\n \nb").length ≤ 10 ∧
    (∀ p ∈ splitParas (String.toList "a\n \nb"), p.length ≤ 10) ∧
    chunkText (String.toList "a\n \nb") 10 = [String.toList "a\n\nb"] ∧
    String.toList "a\n\nb" ≠ String.toList "a\n \nb" := by decide

theorem splitWsGo_no_ws :
    ∀ (fuel : ℕ) (acc s : List Char), s.length ≤ fuel →
      (∀ ch ∈ acc, jsWhitespace ch = false) →
      ∀ w ∈ splitWsGo fuel acc s, ∀ ch ∈ w, jsWhitespace ch = false := by
  intro fuel
  induction fuel with
  | zero =>
    intro acc s hs hacc w hw
    have : s = [] := List.length_eq_zero.mp (Nat.le_zero.mp hs)
    subst this
    simp only [splitWsGo, List.mem_singleton] at hw
    subst hw
    intro ch hch
    exact hacc ch (List.mem_reverse.mp hch)
  | succ fuel ih =>
    intro acc s hs hacc w hw
    cases s with
    | nil =>
      simp only [splitWsGo, List.mem_singleton] at hw
      subst hw
      intro ch hch
      exact hacc ch (List.mem_reverse.mp hch)
    | cons c cs =>
      simp only [splitWsGo] at hw
      by_cases hc : jsWhitespace c = true
      · rw [if_pos hc] at hw
        rcases List.mem_cons.mp hw with h | h
        · subst h
          intro ch hch
          exact hacc ch (List.mem_reverse.mp hch)
        · have hlen : (cs.dropWhile jsWhitespace).length ≤ fuel :=
            le_trans (List.dropWhile_sublist jsWhitespace).length_le (by simpa using hs)
          exact ih [] (cs.dropWhile jsWhitespace) hlen (by simp) w h
      · rw [if_neg hc] at hw
        have hacc2 : ∀ ch ∈ c :: acc, jsWhitespace ch = false := by
          intro ch hch
          rcases List.mem_cons.mp hch with h | h
          · subst h; exact eq_false_of_ne_true hc
          · exact hacc ch h
        exact ih (c :: acc) cs (by simpa using hs) hacc2 w hw

theorem splitWs_no_ws (s : List Char) :
    ∀ w ∈ splitWs s, ∀ ch ∈ w, jsWhitespace ch = false :=
  splitWsGo_no_ws s.length [] s le_rfl (by simp)

theorem foldl_inv_mem {σ α : Type} (P : σ → Prop) (f : σ → α → σ) :
    ∀ (l : List α) (st : σ), (∀ st2 a, a ∈ l → P st2 → P (f st2 a)) → P st →
      P (l.foldl f st) := by
  intro l
  induction l with
  | nil => intro st _ h; exact h
  | cons a l2 ih =>
    intro st hstep h
    exact ih (f st a) (fun st2 b hb => hstep st2 b (List.mem_cons_of_mem a hb))
      (hstep st a (List.mem_cons_self a l2) h)

/-- Size discipline of one produced or in-progress chunk: within the chunk
size plus the up-to-two separator characters the flush check does not
count, or an oversized whitespace-free single word. -/
def SizeOk (chunkSize : Int) (c : List Char) : Prop :=
  (c.length : Int) ≤ chunkSize + 2 ∨
  (chunkSize < (c.length : Int) ∧ ∀ ch ∈ c, jsWhitespace ch = false)

/-- The chunk-size invariant of the `chunkText` loop state. -/
def StateSizeOk (chunkSize : Int) (st : ChunkState) : Prop :=
  (∀ c ∈ st.1, SizeOk chunkSize c) ∧ SizeOk chunkSize st.2

theorem sizeOk_of_no_ws {chunkSize : Int} {c : List Char}
    (h : ∀ ch ∈ c, jsWhitespace ch = false) : SizeOk chunkSize c := by
  rcases le_or_lt ((c.length : Int)) (chunkSize + 2) with h2 | h2
  · exact Or.inl h2
  · exact Or.inr ⟨by linarith, h⟩

theorem pushWord_sizeOk (chunkSize : Int) (st : ChunkState) (w : List Char)
    (hw : ∀ ch ∈ w, jsWhitespace ch = false) (h : StateSizeOk chunkSize st) :
    StateSizeOk chunkSize (pushWord chunkSize st w) := by
  obtain ⟨h1, h2⟩ := h
  rw [pushWord]
  by_cases hc : (st.2.length : Int) + (w.length : Int) + 1 > chunkSize ∧ 0 < st.2.length
  · rw [if_pos hc]
    refine ⟨?_, ?_⟩
    · intro c hcm
      rcases List.mem_append.mp hcm with hm | hm
      · exact h1 c hm
      · rw [List.mem_singleton.mp hm]; exact h2
    · simp only [flushState, List.isEmpty_nil, if_pos]
      simpa using sizeOk_of_no_ws hw
  · rw [if_neg hc]
    refine ⟨h1, ?_⟩
    by_cases he : st.2.isEmpty
    · rw [if_pos he]
      have : st.2 = [] := List.isEmpty_iff.mp he
      rw [this]
      simpa using sizeOk_of_no_ws hw
    · rw [if_neg he]
      have hne : st.2 ≠ [] := fun hh => he (by simp [hh])
      have hpos : 0 < st.2.length := List.length_pos.mpr hne
      have hle : (st.2.length : Int) + (w.length : Int) + 1 ≤ chunkSize := by
        by_contra hgt
        exact hc ⟨lt_of_not_le hgt, hpos⟩
      refine Or.inl ?_
      simp only [List.length_append, List.length_cons, List.length_nil]
      push_cast
      linarith

theorem pushSentence_sizeOk (chunkSize : Int) (st : ChunkState) (s : List Char)
    (h : StateSizeOk chunkSize st) :
    StateSizeOk chunkSize (pushSentence chunkSize st s) := by
  obtain ⟨h1, h2⟩ := h
  rw [pushSentence]
  by_cases hc : (st.2.length : Int) + (s.length : Int) > chunkSize ∧ 0 < st.2.length
  · rw [if_pos hc]
    have hst : StateSizeOk chunkSize (flushState st) := by
      refine ⟨?_, sizeOk_of_no_ws (by simp [flushState])⟩
      intro c hcm
      simp only [flushState] at hcm
      rcases List.mem_append.mp hcm with hm | hm
      · exact h1 c hm
      · rw [List.mem_singleton.mp hm]; exact h2
    by_cases hbig : (s.length : Int) > chunkSize
    · rw [if_pos hbig]
      exact foldl_inv_mem _ _ _ _
        (fun st2 w hw hinv => pushWord_sizeOk chunkSize st2 w (splitWs_no_ws s w hw) hinv) hst
    · rw [if_neg hbig]
      refine ⟨hst.1, ?_⟩
      simp only [flushState, List.isEmpty_nil, if_pos, List.nil_append]
      exact Or.inl (by simpa using le_trans (le_of_not_lt hbig) (by linarith))
  · rw [if_neg hc]
    by_cases hbig : (s.length : Int) > chunkSize
    · rw [if_pos hbig]
      exact foldl_inv_mem _ _ _ _
        (fun st2 w hw hinv => pushWord_sizeOk chunkSize st2 w (splitWs_no_ws s w hw) hinv)
        ⟨h1, h2⟩
    · rw [if_neg hbig]
      refine ⟨h1, ?_⟩
      by_cases he : st.2.isEmpty
      · rw [if_pos he]
        have : st.2 = [] := List.isEmpty_iff.mp he
        rw [this]
        exact Or.inl (by simpa using le_trans (le_of_not_lt hbig) (by linarith))
      · rw [if_neg he]
        have hne : st.2 ≠ [] := fun hh => he (by simp [hh])
        have hpos : 0 < st.2.length := List.length_pos.mpr hne
        have hle : (st.2.length : Int) + (s.length : Int) ≤ chunkSize := by
          by_contra hgt
          exact hc ⟨lt_of_not_le hgt, hpos⟩
        refine Or.inl ?_
        simp only [List.length_append, List.length_cons, List.length_nil]
        push_cast
        linarith

theorem pushParagraph_sizeOk (chunkSize : Int) (st : ChunkState) (p : List Char)
    (h : StateSizeOk chunkSize st) :
    StateSizeOk chunkSize (pushParagraph chunkSize st p) := by
  obtain ⟨h1, h2⟩ := h
  rw [pushParagraph]
  by_cases hc : (st.2.length : Int) + (p.length : Int) > chunkSize ∧ 0 < st.2.length
  · rw [if_pos hc]
    have hst : StateSizeOk chunkSize (flushState st) := by
      refine ⟨?_, sizeOk_of_no_ws (by simp [flushState])⟩
      intro c hcm
      simp only [flushState] at hcm
      rcases List.mem_append.mp hcm with hm | hm
      · exact h1 c hm
      · rw [List.mem_singleton.mp hm]; exact h2
    by_cases hbig : (p.length : Int) > chunkSize
    · rw [if_pos hbig]
      exact foldl_inv_mem _ _ _ _
        (fun st2 s _ hinv => pushSentence_sizeOk chunkSize st2 s hinv) hst
    · rw [if_neg hbig]
      refine ⟨hst.1, ?_⟩
      simp only [flushState, List.isEmpty_nil, if_pos, List.nil_append]
      exact Or.inl (by simpa using le_trans (le_of_not_lt hbig) (by linarith))
  · rw [if_neg hc]
    by_cases hbig : (p.length : Int) > chunkSize
    · rw [if_pos hbig]
      exact foldl_inv_mem _ _ _ _
        (fun st2 s _ hinv => pushSentence_sizeOk chunkSize st2 s hinv) ⟨h1, h2⟩
    · rw [if_neg hbig]
      refine ⟨h1, ?_⟩
      by_cases he : st.2.isEmpty
      · rw [if_pos he]
        have : st.2 = [] := List.isEmpty_iff.mp he
        rw [this]
        exact Or.inl (by simpa using le_trans (le_of_not_lt hbig) (by linarith))
      · rw [if_neg he]
        have hne : st.2 ≠ [] := fun hh => he (by simp [hh])
        have hpos : 0 < st.2.length := List.length_pos.mpr hne
        have hle : (st.2.length : Int) + (p.length : Int) ≤ chunkSize := by
          by_contra hgt
          exact hc ⟨lt_of_not_le hgt, hpos⟩
        refine Or.inl ?_
        simp only [List.length_append, List.length_cons, List.length_nil]
        push_cast
        linarith

/-- C2 (amended): for a positive chunk size every chunk is at most
chunkSize + 2 characters long (the flush check never counts the one- or
two-character separator that the append then inserts), except that a chunk
may instead be a single whitespace-free word longer than chunkSize. -/
theorem chunkText_size_bound (text : List Char) (chunkSize : Int) (_hpos : 0 < chunkSize) :
    ∀ c ∈ chunkText text chunkSize,
      (c.length : Int) ≤ chunkSize + 2 ∨
      (chunkSize < (c.length : Int) ∧ ∀ ch ∈ c, jsWhitespace ch = false) := by
  have hinv : StateSizeOk chunkSize
      ((splitParas text).foldl (pushParagraph chunkSize) ([], [])) :=
    foldl_inv_mem _ _ _ _
      (fun st2 p _ hx => pushParagraph_sizeOk chunkSize st2 p hx)
      ⟨by simp, sizeOk_of_no_ws (by simp)⟩
  intro c hcm
  rw [chunkText] at hcm
  by_cases hf : 0 < ((splitParas text).foldl (pushParagraph chunkSize) ([], [])).2.length
  · rw [if_pos hf] at hcm
    rcases List.mem_append.mp hcm with hm | hm
    · exact hinv.1 c hm
    · rw [List.mem_singleton.mp hm]; exact hinv.2
  · rw [if_neg hf] at hcm
    exact hinv.1 c hcm

/-- Witness for chunkText_size_bound at a concrete input. -/
theorem chunkText_size_bound_witness :
    (0 : Int) < 1 ∧
    (∀ c ∈ chunkText (String.toList "ab cd") 1,
      (c.length : Int) ≤ 1 + 2 ∨
      (1 < (c.length : Int) ∧ ∀ ch ∈ c, jsWhitespace ch = false)) :=
  ⟨by decide, chunkText_size_bound (String.toList "ab cd") 1 (by decide)⟩

/-- The loop-state invariant at a non-positive chunk size: every completed
chunk is a non-empty whitespace-free word, and the accumulator is
whitespace-free. -/
def WordState (st : ChunkState) : Prop :=
  (∀ c ∈ st.1, c ≠ [] ∧ ∀ ch ∈ c, jsWhitespace ch = false) ∧
  (∀ ch ∈ st.2, jsWhitespace ch = false)

theorem pushWord_wordState {chunkSize : Int} (hcs : chunkSize ≤ 0)
    (st : ChunkState) (w : List Char)
    (hw : ∀ ch ∈ w, jsWhitespace ch = false) (h : WordState st) :
    WordState (pushWord chunkSize st w) := by
  obtain ⟨h1, h2⟩ := h
  rw [pushWord]
  by_cases hc : (st.2.length : Int) + (w.length : Int) + 1 > chunkSize ∧ 0 < st.2.length
  · rw [if_pos hc]
    refine ⟨?_, ?_⟩
    · intro c hcm
      simp only [flushState] at hcm
      rcases List.mem_append.mp hcm with hm | hm
      · exact h1 c hm
      · rw [List.mem_singleton.mp hm]
        exact ⟨List.length_pos.mp hc.2, h2⟩
    · simp only [flushState, List.isEmpty_nil, if_pos, List.nil_append]
      exact hw
  · rw [if_neg hc]
    have hemp : st.2 = [] := by
      by_contra hne
      have hpos : 0 < st.2.length := List.length_pos.mpr hne
      refine hc ⟨?_, hpos⟩
      have : (1 : Int) ≤ (st.2.length : Int) := by exact_mod_cast hpos
      have : (0 : Int) ≤ (w.length : Int) := by positivity
      linarith
    refine ⟨h1, ?_⟩
    rw [hemp]
    simpa using hw

theorem pushSentence_wordState {chunkSize : Int} (hcs : chunkSize ≤ 0)
    (st : ChunkState) (s : List Char) (h : WordState st) :
    WordState (pushSentence chunkSize st s) := by
  obtain ⟨h1, h2⟩ := h
  rw [pushSentence]
  by_cases hc : (st.2.length : Int) + (s.length : Int) > chunkSize ∧ 0 < st.2.length
  · rw [if_pos hc]
    have hst : WordState (flushState st) := by
      refine ⟨?_, by simp [flushState]⟩
      intro c hcm
      simp only [flushState] at hcm
      rcases List.mem_append.mp hcm with hm | hm
      · exact h1 c hm
      · rw [List.mem_singleton.mp hm]
        exact ⟨List.length_pos.mp hc.2, h2⟩
    by_cases hbig : (s.length : Int) > chunkSize
    · rw [if_pos hbig]
      exact foldl_inv_mem _ _ _ _
        (fun st2 w hw hinv => pushWord_wordState hcs st2 w (splitWs_no_ws s w hw) hinv) hst
    · rw [if_neg hbig]
      have hs0 : s = [] := by
        have : (s.length : Int) ≤ 0 := le_trans (le_of_not_lt hbig) hcs
        have : s.length = 0 := by exact_mod_cast le_antisymm (by exact_mod_cast this) (Nat.zero_le _)
        exact List.length_eq_zero.mp this
      refine ⟨hst.1, ?_⟩
      simp [flushState, hs0]
  · rw [if_neg hc]
    by_cases hbig : (s.length : Int) > chunkSize
    · rw [if_pos hbig]
      exact foldl_inv_mem _ _ _ _
        (fun st2 w hw hinv => pushWord_wordState hcs st2 w (splitWs_no_ws s w hw) hinv) ⟨h1, h2⟩
    · rw [if_neg hbig]
      have hs0 : s = [] := by
        have h3 : (s.length : Int) ≤ 0 := le_trans (le_of_not_lt hbig) hcs
        have h4 : s.length = 0 := by exact_mod_cast le_antisymm (by exact_mod_cast h3) (Nat.zero_le _)
        exact List.length_eq_zero.mp h4
      have hemp : st.2 = [] := by
        by_contra hne
        have hpos : 0 < st.2.length := List.length_pos.mpr hne
        refine hc ⟨?_, hpos⟩
        have h5 : (1 : Int) ≤ (st.2.length : Int) := by exact_mod_cast hpos
        have h6 : (0 : Int) ≤ (s.length : Int) := by positivity
        linarith
      refine ⟨h1, ?_⟩
      simp [hemp, hs0]

theorem pushParagraph_wordState {chunkSize : Int} (hcs : chunkSize ≤ 0)
    (st : ChunkState) (p : List Char) (h : WordState st) :
    WordState (pushParagraph chunkSize st p) := by
  obtain ⟨h1, h2⟩ := h
  rw [pushParagraph]
  by_cases hc : (st.2.length : Int) + (p.length : Int) > chunkSize ∧ 0 < st.2.length
  · rw [if_pos hc]
    have hst : WordState (flushState st) := by
      refine ⟨?_, by simp [flushState]⟩
      intro c hcm
      simp only [flushState] at hcm
      rcases List.mem_append.mp hcm with hm | hm
      · exact h1 c hm
      · rw [List.mem_singleton.mp hm]
        exact ⟨List.length_pos.mp hc.2, h2⟩
    by_cases hbig : (p.length : Int) > chunkSize
    · rw [if_pos hbig]
      exact foldl_inv_mem _ _ _ _
        (fun st2 s _ hinv => pushSentence_wordState hcs st2 s hinv) hst
    · rw [if_neg hbig]
      have hp0 : p = [] := by
        have h3 : (p.length : Int) ≤ 0 := le_trans (le_of_not_lt hbig) hcs
        have h4 : p.length = 0 := by exact_mod_cast le_antisymm (by exact_mod_cast h3) (Nat.zero_le _)
        exact List.length_eq_zero.mp h4
      refine ⟨hst.1, ?_⟩
      simp [flushState, hp0]
  · rw [if_neg hc]
    by_cases hbig : (p.length : Int) > chunkSize
    · rw [if_pos hbig]
      exact foldl_inv_mem _ _ _ _
        (fun st2 s _ hinv => pushSentence_wordState hcs st2 s hinv) ⟨h1, h2⟩
    · rw [if_neg hbig]
      have hp0 : p = [] := by
        have h3 : (p.length : Int) ≤ 0 := le_trans (le_of_not_lt hbig) hcs
        have h4 : p.length = 0 := by exact_mod_cast le_antisymm (by exact_mod_cast h3) (Nat.zero_le _)
        exact List.length_eq_zero.mp h4
      have hemp : st.2 = [] := by
        by_contra hne
        have hpos : 0 < st.2.length := List.length_pos.mpr hne
        refine hc ⟨?_, hpos⟩
        have h5 : (1 : Int) ≤ (st.2.length : Int) := by exact_mod_cast hpos
        have h6 : (0 : Int) ≤ (p.length : Int) := by positivity
        linarith
      refine ⟨h1, ?_⟩
      simp [hemp, hp0]

/-- C6 (amended): chunkText performs no validation of the chunk size; at a
non-positive chunk size it raises no error and returns a chunk list whose
every chunk is a non-empty whitespace-free single word. -/
theorem chunkText_nonpos_chunks (text : List Char) (chunkSize : Int) (hcs : chunkSize ≤ 0) :
    ∀ c ∈ chunkText text chunkSize, c ≠ [] ∧ ∀ ch ∈ c, jsWhitespace ch = false := by
  have hinv : WordState ((splitParas text).foldl (pushParagraph chunkSize) ([], [])) :=
    foldl_inv_mem _ _ _ _
      (fun st2 p _ hx => pushParagraph_wordState hcs st2 p hx)
      ⟨by simp, by simp⟩
  intro c hcm
  rw [chunkText] at hcm
  by_cases hf : 0 < ((splitParas text).foldl (pushParagraph chunkSize) ([], [])).2.length
  · rw [if_pos hf] at hcm
    rcases List.mem_append.mp hcm with hm | hm
    · exact hinv.1 c hm
    · rw [List.mem_singleton.mp hm]
      exact ⟨List.length_pos.mp hf, hinv.2⟩
  · rw [if_neg hf] at hcm
    exact hinv.1 c hcm

/-- Witness for chunkText_nonpos_chunks at a concrete input. -/
theorem chunkText_nonpos_chunks_witness :
    ((0 : Int) ≤ 0) ∧
    (∀ c ∈ chunkText (String.toList "ab cd") 0,
      c ≠ [] ∧ ∀ ch ∈ c, jsWhitespace ch = false) :=
  ⟨by decide, chunkText_nonpos_chunks (String.toList "ab cd") 0 (by decide)⟩

/-- The accumulator value built by the paragraph loop when nothing ever
flushes: paragraphs joined by a blank line, with the separator omitted
while the accumulator is still empty. -/
def joinFrom (acc : List Char) (ps : List (List Char)) : List Char :=
  ps.foldl (fun a p => a ++ (if a.isEmpty then [] else ['\n', '\n']) ++ p) acc

/-- The input text with every blank-line separator rewritten to a plain
blank line, exactly as the no-flush path of `chunkText` rebuilds it. -/
def normText (text : List Char) : List Char :=
  joinFrom [] (splitParas text)

theorem joinFrom_cons (a p : List Char) (ps : List (List Char)) :
    joinFrom a (p :: ps) =
      joinFrom (a ++ (if a.isEmpty then [] else ['\n', '\n']) ++ p) ps := rfl

theorem le_length_joinFrom :
    ∀ (ps : List (List Char)) (a : List Char), a.length ≤ (joinFrom a ps).length := by
  intro ps
  induction ps with
  | nil => intro a; exact le_rfl
  | cons p ps ih =>
    intro a
    rw [joinFrom_cons]
    refine le_trans ?_ (ih _)
    simp [List.length_append]

theorem joinFrom_length_le :
    ∀ (ps : List (List Char)) (a : List Char),
      (joinFrom a ps).length ≤ a.length + ((ps.map List.length).sum + 2 * ps.length) := by
  intro ps
  induction ps with
  | nil => intro a; simp [joinFrom]
  | cons p ps ih =>
    intro a
    rw [joinFrom_cons]
    refine le_trans (ih _) ?_
    have hsep : (if a.isEmpty then ([] : List Char) else ['\n', '\n']).length ≤ 2 := by
      by_cases he : a.isEmpty <;> simp [he]
    simp only [List.length_append, List.map_cons, List.sum_cons, List.length_cons]
    omega

theorem lastNlInWsRun_lt :
    ∀ (cs : List Char) (p : ℕ), lastNlInWsRun cs = some p → p < cs.length := by
  intro cs
  induction cs with
  | nil => intro p hp; simp [lastNlInWsRun] at hp
  | cons c cs ih =>
    intro p hp
    simp only [lastNlInWsRun] at hp
    by_cases hw : jsWhitespace c = true
    · rw [if_pos hw] at hp
      cases hrec : lastNlInWsRun cs with
      | some q =>
        rw [hrec] at hp
        have := ih q hrec
        simp only [Option.some.injEq] at hp
        simp only [List.length_cons]
        omega
      | none =>
        rw [hrec] at hp
        by_cases hn : c = '\n'
        · rw [if_pos hn] at hp
          simp only [Option.some.injEq] at hp
          simp only [List.length_cons]
          omega
        · rw [if_neg hn] at hp
          exact absurd hp (by simp)
    · rw [if_neg hw] at hp
      exact absurd hp (by simp)

theorem splitParasGo_size :
    ∀ (fuel : ℕ) (acc s : List Char), s.length ≤ fuel →
      ((splitParasGo fuel acc s).map List.length).sum +
        2 * (splitParasGo fuel acc s).length ≤ acc.length + s.length + 2 := by
  intro fuel
  induction fuel with
  | zero =>
    intro acc s hs
    have : s = [] := List.length_eq_zero.mp (Nat.le_zero.mp hs)
    subst this
    simp [splitParasGo]
  | succ fuel ih =>
    intro acc s hs
    cases s with
    | nil => simp [splitParasGo]
    | cons c cs =>
      simp only [splitParasGo]
      by_cases hc : c = '\n'
      · rw [if_pos hc]
        cases hnl : lastNlInWsRun cs with
        | some p =>
          have hplt : p < cs.length := lastNlInWsRun_lt cs p hnl
          have hdlen : (cs.drop (p + 1)).length = cs.length - (p + 1) := List.length_drop _ _
          have hdfuel : (cs.drop (p + 1)).length ≤ fuel := by
            rw [hdlen]
            simp only [List.length_cons] at hs
            omega
          have hrec := ih [] (cs.drop (p + 1)) hdfuel
          simp only [List.map_cons, List.sum_cons, List.length_cons, List.length_reverse,
            List.length_nil] at hrec ⊢
          omega
        | none =>
          have := ih (c :: acc) cs (by simpa using hs)
          simp only [List.length_cons] at this ⊢
          omega
      · rw [if_neg hc]
        have := ih (c :: acc) cs (by simpa using hs)
        simp only [List.length_cons] at this ⊢
        omega

theorem joinFrom_nil_cons (p : List Char) (ps : List (List Char)) :
    joinFrom [] (p :: ps) = joinFrom p ps := by
  rw [joinFrom_cons]
  simp

theorem normText_length_le (text : List Char) : (normText text).length ≤ text.length := by
  have hsz := splitParasGo_size text.length [] text le_rfl
  rw [normText, splitParas]
  cases hsp : splitParasGo text.length [] text with
  | nil => simp [joinFrom]
  | cons p ps =>
    rw [joinFrom_nil_cons]
    have h1 := joinFrom_length_le ps p
    rw [hsp] at hsz
    simp only [List.map_cons, List.sum_cons, List.length_cons, List.length_nil] at hsz
    omega

theorem foldl_pushParagraph_append :
    ∀ (chunkSize : Int) (ps : List (List Char)) (chunks : List (List Char)) (cur : List Char),
      ((joinFrom cur ps).length : Int) ≤ chunkSize →
      ps.foldl (pushParagraph chunkSize) (chunks, cur) = (chunks, joinFrom cur ps) := by
  intro chunkSize ps
  induction ps with
  | nil => intro chunks cur _; rfl
  | cons p ps ih =>
    intro chunks cur hle
    have hjoin : joinFrom cur (p :: ps) =
        joinFrom (cur ++ (if cur.isEmpty then [] else ['\n', '\n']) ++ p) ps :=
      joinFrom_cons cur p ps
    have h1 : (cur ++ (if cur.isEmpty then [] else ['\n', '\n']) ++ p).length ≤
        (joinFrom (cur ++ (if cur.isEmpty then [] else ['\n', '\n']) ++ p) ps).length :=
      le_length_joinFrom ps _
    have h2 : ((joinFrom (cur ++ (if cur.isEmpty then [] else ['\n', '\n']) ++ p) ps).length :
        Int) ≤ chunkSize := by
      rw [← hjoin]; exact hle
    have hcurp : cur.length + p.length ≤
        (cur ++ (if cur.isEmpty then [] else ['\n', '\n']) ++ p).length := by
      simp [List.length_append]
    have hsum : ((cur.length : Int) + (p.length : Int)) ≤ chunkSize := by
      have h3 : ((cur.length + p.length : ℕ) : Int) ≤ chunkSize := by
        have h4 : cur.length + p.length ≤
            (joinFrom (cur ++ (if cur.isEmpty then [] else ['\n', '\n']) ++ p) ps).length :=
          le_trans hcurp h1
        exact le_trans (by exact_mod_cast h4) h2
      push_cast at h3
      exact h3
    have hflush : ¬ ((cur.length : Int) + (p.length : Int) > chunkSize ∧ 0 < cur.length) := by
      intro hcon
      exact absurd hsum (not_le.mpr hcon.1)
    have hbig : ¬ ((p.length : Int) > chunkSize) := by
      intro hcon
      have : (p.length : Int) ≤ chunkSize := by
        have h5 : (0 : Int) ≤ (cur.length : Int) := by positivity
        linarith
      exact absurd this (not_le.mpr hcon)
    have hstep : pushParagraph chunkSize (chunks, cur) p =
        (chunks, cur ++ (if cur.isEmpty then [] else ['\n', '\n']) ++ p) := by
      rw [pushParagraph, if_neg hflush, if_neg hbig]
    rw [List.foldl_cons, hstep, hjoin]
    exact ih chunks _ h2

/-- C7 (amended): whenever the whole text fits in the chunk size and the
separator-normalized text is non-empty, chunkText returns exactly one
chunk, equal to the text with each blank-line separator rewritten to a
plain blank line (and leading empty paragraphs dropped). -/
theorem chunkText_single_normalized (text : List Char) (chunkSize : Int)
    (hlen : (text.length : Int) ≤ chunkSize) (hne : normText text ≠ []) :
    chunkText text chunkSize = [normText text] := by
  have h1 : ((joinFrom [] (splitParas text)).length : Int) ≤ chunkSize := by
    have h2 := normText_length_le text
    rw [normText] at h2
    calc ((joinFrom [] (splitParas text)).length : Int)
        ≤ (text.length : Int) := by exact_mod_cast h2
      _ ≤ chunkSize := hlen
  have hfold := foldl_pushParagraph_append chunkSize (splitParas text) [] [] h1
  have hpos : 0 < (joinFrom [] (splitParas text)).length := by
    rw [normText] at hne
    exact List.length_pos.mpr hne
  simp only [chunkText, hfold, hpos, if_pos, normText]
  simp

/-- Witness for chunkText_single_normalized at the documented concrete
scenario. -/
theorem chunkText_single_normalized_witness :
    ((String.toList "Short text.").length : Int) ≤ 20 ∧
    normText (String.toList "Short text.") ≠ [] ∧
    chunkText (String.toList "Short text.") 20 = [normText (String.toList "Short text.")] :=
  ⟨by decide, by decide,
    chunkText_single_normalized (String.toList "Short text.") 20 (by decide) (by decide)⟩
